import Mathlib

/-!
Verification of `maschine_chords_converter` (`internal/converter/converter.go`).

The converter turns folders of MIDI files into JSON chord sets.  This file is a
shallow embedding of the conversion pipeline:

* file names and labels are `List Char` (a Go `string` is a sequence of bytes,
  read here as characters);
* a MIDI file is abstracted to the list of note-on events the `gomidi` reader
  delivers to the registered `NoteOn` callback, in file order, plus a flag
  saying whether `reader.ReadSMFFile` fails on the file;
* a chord-set folder is the list of directory entries that
  `filepath.WalkDir` visits, in traversal order;
* `fmt.Errorf` error values are represented by the constructor of `ConvError`
  that corresponds to the formatted message (the message wrapping added by
  callers carries no information the claims need).
-/

namespace MaschineChords

/-- Constant `version` from `converter.go`: version stamp of produced sets. -/
def version : String := "1.0.0"

/-- Constant `baseChordName` from `converter.go`: prefix of placeholder chord names. -/
def baseChordName : String := "Chd"

/-- Constant `baseNote` from `converter.go`: the reference note (C3) subtracted from keys. -/
def baseNote : Int := 60

/-- Constant `minChordNumber` from `converter.go`. -/
def minChordNumber : Nat := 1

/-- Constant `maxChordNumber` from `converter.go`: number of chords in a set. -/
def maxChordNumber : Nat := 12

/-- Constant `maxSetNumber` from `converter.go`: maximum number of chord sets processed. -/
def maxSetNumber : Nat := 16

/-- Struct `Chord` from `converter.go`: a chord name and its note values. -/
structure Chord where
  name : List Char
  notes : List Int
deriving Repr, DecidableEq

/-- Struct `ChordSet` from `converter.go` (fields in source order). -/
structure ChordSet where
  chords : List Chord
  name : String
  typeId : String
  uuid : String
  version : String
deriving Repr, DecidableEq

/-- One argument triple of the `reader.NoteOn` callback: channel, key and
velocity are `uint8` values, carried here as `Nat` (MIDI keys are 0..127). -/
structure NoteOnEvent where
  channel : Nat
  key : Nat
  vel : Nat
deriving Repr, DecidableEq

/-- One entry seen by `filepath.WalkDir` inside a chord-set folder: the
`fs.DirEntry` data (`IsDir`, `Name`) together with the abstracted content of
the file at that path — its note-on events and whether reading it fails. -/
structure DirEntry where
  isDir : Bool
  name : List Char
  events : List NoteOnEvent
  readErr : Bool
deriving Repr, DecidableEq

/-- Error values produced by the converter (`fmt.Errorf` calls), keyed by the
file name the message interpolates. -/
inductive ConvError where
  | invalidFileName (name : List Char)
  | midiReadError (name : List Char)
deriving Repr, DecidableEq

/-- Accumulation loop of the `reader.NoteOn` callback in `readChordNotes`:
an event is appended when its velocity is positive and its key was not seen
before.  The Go code keeps a `seen` map next to the `notes` slice; the two are
updated together, so `seen[key]` holds exactly when `key` is already in the
accumulated list, and membership in the accumulator models the map. -/
def collectNotes : List NoteOnEvent → List Nat → List Nat
  | [], notes => notes
  | e :: rest, notes =>
    if 0 < e.vel ∧ ¬ e.key ∈ notes then
      collectNotes rest (notes ++ [e.key])
    else
      collectNotes rest notes

/-- Function `readChordNotes` from `converter.go`, success path: collect the
distinct positive-velocity note-on keys in file order, then subtract
`baseNote` from each.  The subtraction happens inside this function, exactly
as in the source (`relative = append(relative, note-baseNote)`). -/
def readChordNotes (events : List NoteOnEvent) : List Int :=
  (collectNotes events []).map (fun (note : Nat) => (note : Int) - baseNote)

/-- Call `slices.Sort` on an `[]int`: sort ascending (insertion sort here, so
that the kernel can evaluate it; `slices.Sort` fixes only the ascending
order, not the algorithm). -/
def sortInts (l : List Int) : List Int :=
  l.insertionSort (fun a b => a ≤ b)

/-- Split a trailing literal `".mid"` from a character list, returning the
stem.  `stripMid s = some p` exactly when `s = p ++ ".mid"`; so
`(stripMid s).isSome` is Go `strings.HasSuffix(s, ".mid")`, and the stem is
what the regular expression may still match. -/
def stripMid (s : List Char) : Option (List Char) :=
  match s.reverse with
  | c1 :: c2 :: c3 :: c4 :: rest =>
    if c1 = 'd' ∧ c2 = 'i' ∧ c3 = 'm' ∧ c4 = '.' then some rest.reverse else none
  | _ => none

/-- Go `strings.HasSuffix(name, midiExtension)` with `midiExtension = ".mid"`. -/
def hasMidSuffix (s : List Char) : Bool :=
  (stripMid s).isSome

/-- Character class of `.` in a Go regular expression: any character except
newline. -/
def dotChar (c : Char) : Bool :=
  c != '\n'

/-- Matching of the part `(.+?)\.mid$` of the regular expression against what
remains after the digits and the space: the final four characters must be
`".mid"` and the capture in front of them must be non-empty and free of
newline (`.` does not match newline).  Returns the two capture groups. -/
def matchLabelPart (digits s : List Char) : Option (List Char × List Char) :=
  match stripMid s with
  | some label =>
    if label ≠ [] ∧ label.all dotChar then some (digits, label) else none
  | none => none

/-- Matching of the anchored regular expression
`^(\d{1,2}) (.+?)\.mid$` (variable `re` in `converter.go`) against a file
name, returning the two capture groups `(digits, label)` on success.  With
both anchors the match is forced: `\d{1,2}` greedily takes two digits when the
first two characters are digits, and then the third character must be the
space; otherwise it takes one digit, and the second character must be the
space (when the second character is a digit this backtracking alternative can
never fire, a digit not being a space); `\.mid$` must consume the final four
characters, so the label capture is everything in between.  Names shorter
than three characters cannot match (`1 x.mid` has seven). -/
def matchChordFileName : List Char → Option (List Char × List Char)
  | c1 :: c2 :: c3 :: rest =>
    if c1.isDigit ∧ c2.isDigit ∧ c3 = ' ' then matchLabelPart [c1, c2] rest
    else if c1.isDigit ∧ c2 = ' ' then matchLabelPart [c1] (c3 :: rest)
    else none
  | _ => none

/-- Go `strconv.Atoi` restricted to the matched digit group: one or two ASCII
digits always convert, to their decimal value (the `Atoi` error branch in
`parseChordFileName` is unreachable for a successful regex match). -/
def digitsToNat (digits : List Char) : Nat :=
  digits.foldl (fun acc c => 10 * acc + (c.toNat - 48)) 0

/-- Membership in Go `unicode.IsSpace` for the Latin-1 range: tab, newline,
vertical tab, form feed, carriage return, space, next line, no-break space.
(White_Space code points above U+00FF are not reproduced here; no file-name
claim involves them.) -/
def goIsSpace (c : Char) : Bool :=
  c = '\t' ∨ c = '\n' ∨ c = Char.ofNat 0x0B ∨ c = Char.ofNat 0x0C ∨
    c = '\r' ∨ c = ' ' ∨ c = Char.ofNat 0x85 ∨ c = Char.ofNat 0xA0

/-- Go `strings.TrimSpace`: drop leading and trailing white space. -/
def trimSpace (s : List Char) : List Char :=
  ((s.dropWhile goIsSpace).reverse.dropWhile goIsSpace).reverse

/-- Function `parseChordFileName` from `converter.go`: match the file name
against `re`; on success return the digit group converted by `Atoi` and the
label trimmed by `strings.TrimSpace`; on failure the Go function returns the
`invalid file name` error, modelled by `none`. -/
def parseChordFileName (fileName : List Char) : Option (Nat × List Char) :=
  match matchChordFileName fileName with
  | some (digits, label) => some (digitsToNat digits, trimSpace label)
  | none => none

/-- Placeholder chord stored at index `i` when the chords array is
initialized: `fmt.Sprintf("%s %d", baseChordName, i+1)` and empty notes. -/
def defaultChord (i : Nat) : Chord :=
  ⟨(baseChordName ++ " " ++ Nat.repr (i + 1)).toList, []⟩

/-- Initialization loop of `processOneSetFolder`: an array of
`maxChordNumber` placeholder chords. -/
def initChords : List Chord :=
  (List.range maxChordNumber).map defaultChord

/-- Body of the `filepath.WalkDir` callback in `processOneSetFolder`, for one
entry: skip directories and files without the `.mid` suffix; propagate a
parse failure of the file name as an error; skip files whose chord number is
out of range or whose trimmed name is empty; propagate a MIDI read failure as
an error; otherwise sort the extracted notes and overwrite the slot
`chordNumber-1`. -/
def stepFile (chords : List Chord) (f : DirEntry) : Except ConvError (List Chord) :=
  if f.isDir = true ∨ hasMidSuffix f.name = false then .ok chords
  else
    match parseChordFileName f.name with
    | none => .error (ConvError.invalidFileName f.name)
    | some (chordNumber, chordName) =>
      if chordNumber < minChordNumber ∨ maxChordNumber < chordNumber ∨
          chordNumber = 0 ∨ chordName = [] then
        .ok chords
      else if f.readErr = true then
        .error (ConvError.midiReadError f.name)
      else
        .ok (chords.set (chordNumber - 1)
          ⟨chordName, sortInts (readChordNotes f.events)⟩)

/-- Walk over the files of one chord-set folder in traversal order,
threading the chords array; the first error aborts the walk, as a non-nil
return from a `WalkDir` callback aborts the walk in Go. -/
def walkFiles (chords : List Chord) : List DirEntry → Except ConvError (List Chord)
  | [] => .ok chords
  | f :: rest =>
    match stepFile chords f with
    | .error e => .error e
    | .ok chords2 => walkFiles chords2 rest

/-- Function `processOneSetFolder` from `converter.go`: given the current
`c.chordSets`, the folder name, the folder entries in traversal order and the
freshly generated UUID (randomness is external input here), either return the
collection unchanged when `maxSetNumber` sets were already collected, or walk
the files and append the assembled `ChordSet`.  A walk error is returned (the
Go code wraps it with the set name; the wrapping is dropped here). -/
def processOneSetFolder (chordSets : List ChordSet) (setName : String)
    (files : List DirEntry) (uuid : String) : Except ConvError (List ChordSet) :=
  if maxSetNumber ≤ chordSets.length then .ok chordSets
  else
    match walkFiles initChords files with
    | .error e => .error e
    | .ok chords =>
      .ok (chordSets ++ [⟨chords, setName, "native-instruments-chord-set", uuid, version⟩])

/-- One qualifying chord-set folder as seen by `processSetsFolder`: its name,
its entries in traversal order, and the UUID drawn for it. -/
structure SetFolder where
  name : String
  files : List DirEntry
  uuid : String

/-- Loop of `processSetsFolder` over the qualifying subfolders (directories
other than the root whose names pass the length and reserved-name checks),
invoking `processOneSetFolder` on each and aborting on the first error. -/
def runFolders (chordSets : List ChordSet) : List SetFolder → Except ConvError (List ChordSet)
  | [] => .ok chordSets
  | folder :: rest =>
    match processOneSetFolder chordSets folder.name folder.files folder.uuid with
    | .error e => .error e
    | .ok chordSets2 => runFolders chordSets2 rest

/-- File name computed by `outputJsonFiles` for the chord set at 0-based
position `i`: `fmt.Sprintf("user_chord_set_0%d.json", i+1)`. -/
def outFileName (i : Nat) : String :=
  "user_chord_set_0" ++ Nat.repr (i + 1) ++ ".json"

/-- Output loop of `outputJsonFiles`: for each collected chord set, in order,
one write of (file name, serialized set); the JSON rendering itself carries no
claim, so the pair keeps the set. -/
def outputJsonFiles (chordSets : List ChordSet) : List (String × ChordSet) :=
  chordSets.enum.map (fun p => (outFileName p.1, p.2))

/-- Acceptance predicate extracted from the walk body: entry `f` fills slot
`k` when it is a non-directory `.mid` file whose name parses to chord number
`k` in range with a non-empty label — exactly the condition under which
`stepFile` overwrites index `k-1`. -/
def fillsSlot (f : DirEntry) (k : Nat) : Bool :=
  !f.isDir && hasMidSuffix f.name &&
    (parseChordFileName f.name).any
      (fun p => p.1 == k && decide (minChordNumber ≤ p.1) &&
        decide (p.1 ≤ maxChordNumber) && !(p.2.isEmpty))

/-- Event stream of the worked example in the specification: note-on events
for keys 64, 60, 64, 67 with velocities 80, 80, 0, 90, in that order. -/
def exampleEvents : List NoteOnEvent :=
  [⟨0, 64, 80⟩, ⟨0, 60, 80⟩, ⟨0, 64, 0⟩, ⟨0, 67, 90⟩]

/-- Event stream with a single note-on below the base note: key 59 (a valid
MIDI key), velocity 80. -/
def lowKeyEvents : List NoteOnEvent :=
  [⟨0, 59, 80⟩]

/- Theorems.  Helper lemmas are shared; each claim has exactly one theorem
(plus, where required, a counterexample and a witness). -/

theorem mem_collectNotes {x : Nat} :
    ∀ (events : List NoteOnEvent) (acc : List Nat), x ∈ collectNotes events acc →
      x ∈ acc ∨ ∃ e, e ∈ events ∧ 0 < e.vel ∧ x = e.key := by
  intro events
  induction events with
  | nil => intro acc h; exact Or.inl h
  | cons e rest ih =>
    intro acc h
    unfold collectNotes at h
    split at h
    · rename_i hcond
      rcases ih _ h with hin | ⟨f, hf, hv, hx⟩
      · rcases List.mem_append.mp hin with hin2 | hin2
        · exact Or.inl hin2
        · refine Or.inr ⟨e, List.mem_cons_self _ _, hcond.1, ?_⟩
          simpa using hin2
      · exact Or.inr ⟨f, List.mem_cons_of_mem _ hf, hv, hx⟩
    · rcases ih _ h with hin | ⟨f, hf, hv, hx⟩
      · exact Or.inl hin
      · exact Or.inr ⟨f, List.mem_cons_of_mem _ hf, hv, hx⟩

/-- C1 counterexample: on the specification's worked example the extractor
does not produce `[0, 4]`, neither before nor after the caller's sort. -/
theorem readChordNotes_example_not_two :
    readChordNotes exampleEvents ≠ [0, 4] ∧
      sortInts (readChordNotes exampleEvents) ≠ [0, 4] := by
  decide

/-- C1 (amended): on note-on events for keys 64, 60, 64, 67 with velocities
80, 80, 0, 90, the extractor records 64, 60, 67 (the zero-velocity event is
ignored, the duplicate 64 is deduplicated), subtracts the base note 60 giving
`[4, 0, 7]`, and the caller's sort yields `[0, 4, 7]` ascending. -/
theorem readChordNotes_example_value :
    readChordNotes exampleEvents = [4, 0, 7] ∧
      sortInts (readChordNotes exampleEvents) = [0, 4, 7] := by
  decide

/-- C3 counterexample: for a note-on with key 59 (inside the 0–127 MIDI key
range) the extractor returns `[-1]`, not the raw key list `[59]`: the
subtraction of the reference note 60 happens inside `readChordNotes`, not in
the caller. -/
theorem readChordNotes_not_raw_keys :
    readChordNotes lowKeyEvents = [-1] ∧ ([-1] : List Int) ≠ [59] := by
  decide

/-- C3 (amended): every value returned by `readChordNotes` is a signed
relative offset `key - 60` of some positive-velocity event of the input — the
extractor itself performs the base-note subtraction — and when all keys are in
the 0–127 MIDI range the returned offsets lie in `[-60, 67]`. -/
theorem readChordNotes_offsets (events : List NoteOnEvent) (x : Int)
    (hx : x ∈ readChordNotes events) :
    (∃ e, e ∈ events ∧ 0 < e.vel ∧ x = (e.key : Int) - baseNote) ∧
      ((∀ e, e ∈ events → e.key ≤ 127) → -60 ≤ x ∧ x ≤ 67) := by
  unfold readChordNotes at hx
  obtain ⟨k, hk, hkx⟩ : ∃ k, k ∈ collectNotes events [] ∧ ((k : Int) - baseNote) = x :=
    List.mem_map.mp hx
  rcases mem_collectNotes events [] hk with hin | ⟨e, he, hv, hek⟩
  · simp at hin
  · constructor
    · exact ⟨e, he, hv, by rw [← hkx, hek]⟩
    · intro h127
      have hle : e.key ≤ 127 := h127 e he
      have : x = (e.key : Int) - baseNote := by rw [← hkx, hek]
      have hcast : (e.key : Int) ≤ 127 := by exact_mod_cast hle
      have hnn : (0 : Int) ≤ (e.key : Int) := by exact_mod_cast Nat.zero_le e.key
      unfold baseNote at this
      omega

theorem stripMid_append (l : List Char) : stripMid (l ++ ['.', 'm', 'i', 'd']) = some l := by
  unfold stripMid
  rw [List.reverse_append]
  simp

theorem stripMid_eq_some {s p : List Char} (h : stripMid s = some p) :
    s = p ++ ['.', 'm', 'i', 'd'] := by
  unfold stripMid at h
  split at h
  · rename_i c1 c2 c3 c4 rest heq
    split at h
    · rename_i hc
      obtain ⟨h1, h2, h3, h4⟩ := hc
      injection h with h5
      have hs : s = (c1 :: c2 :: c3 :: c4 :: rest).reverse := by
        rw [← heq, List.reverse_reverse]
      subst h1 h2 h3 h4 h5
      simp [hs]
    · exact absurd h (by simp)
  · exact absurd h (by simp)

theorem matchLabelPart_append {lab : List Char} (digits : List Char)
    (hlab : lab ≠ []) (hdot : lab.all dotChar = true) :
    matchLabelPart digits (lab ++ ['.', 'm', 'i', 'd']) = some (digits, lab) := by
  simp [matchLabelPart, stripMid_append, hlab, hdot]

theorem matchLabelPart_some {digits s d lab : List Char}
    (h : matchLabelPart digits s = some (d, lab)) :
    d = digits ∧ s = lab ++ ['.', 'm', 'i', 'd'] ∧ lab ≠ [] ∧ lab.all dotChar = true := by
  unfold matchLabelPart at h
  cases hsm : stripMid s with
  | none => rw [hsm] at h; exact absurd h (by simp)
  | some label =>
    rw [hsm] at h
    simp only [] at h
    split at h
    · rename_i hcond
      injection h with h5
      injection h5 with h6 h7
      subst h6 h7
      exact ⟨rfl, stripMid_eq_some hsm, hcond.1, hcond.2⟩
    · exact absurd h (by simp)

theorem matchChordFileName_some_spec {s d lab : List Char}
    (h : matchChordFileName s = some (d, lab)) :
    s = d ++ ' ' :: (lab ++ ['.', 'm', 'i', 'd']) ∧
      (d.length = 1 ∨ d.length = 2) ∧ d.all Char.isDigit = true ∧
      lab ≠ [] ∧ lab.all dotChar = true := by
  cases s with
  | nil => exact absurd h (by simp [matchChordFileName])
  | cons c1 t =>
    cases t with
    | nil => exact absurd h (by simp [matchChordFileName])
    | cons c2 t2 =>
      cases t2 with
      | nil => exact absurd h (by simp [matchChordFileName])
      | cons c3 rest =>
        simp only [matchChordFileName] at h
        split at h
        · rename_i hc
          obtain ⟨h1, h2, h3⟩ := hc
          obtain ⟨hd, hs, hlab, hdot⟩ := matchLabelPart_some h
          subst hd h3
          refine ⟨?_, Or.inr rfl, by simp [h1, h2], hlab, hdot⟩
          rw [hs]
          simp
        · split at h
          · rename_i hc
            obtain ⟨h1, h2⟩ := hc
            obtain ⟨hd, hs, hlab, hdot⟩ := matchLabelPart_some h
            subst hd h2
            refine ⟨?_, Or.inl rfl, by simp [h1], hlab, hdot⟩
            rw [← hs]
            simp
          · exact absurd h (by simp)

theorem matchChordFileName_assemble {d lab : List Char}
    (hlen : d.length = 1 ∨ d.length = 2) (hdig : d.all Char.isDigit = true)
    (hlab : lab ≠ []) (hdot : lab.all dotChar = true) :
    matchChordFileName (d ++ ' ' :: (lab ++ ['.', 'm', 'i', 'd'])) = some (d, lab) := by
  rcases hlen with h1 | h2
  · obtain ⟨c1, rfl⟩ := List.length_eq_one.mp h1
    have hc1 : c1.isDigit = true := by simpa using hdig
    cases lab with
    | nil => exact absurd rfl hlab
    | cons l0 ltail =>
      show matchChordFileName (c1 :: ' ' :: l0 :: (ltail ++ ['.', 'm', 'i', 'd'])) =
        some ([c1], l0 :: ltail)
      simp only [matchChordFileName]
      rw [if_neg (by simp), if_pos (by simp [hc1])]
      exact matchLabelPart_append [c1] hlab hdot
  · obtain ⟨c1, c2, rfl⟩ := List.length_eq_two.mp h2
    have hc : c1.isDigit = true ∧ c2.isDigit = true := by simpa using hdig
    show matchChordFileName (c1 :: c2 :: ' ' :: (lab ++ ['.', 'm', 'i', 'd'])) =
      some ([c1, c2], lab)
    simp only [matchChordFileName]
    rw [if_pos (by simp [hc.1, hc.2])]
    exact matchLabelPart_append [c1, c2] hlab hdot

/-- C5 counterexample: the name `"1 a\nb.mid"` has the claimed shape — one
digit, one space, the non-empty label `"a\nb"`, the `".mid"` suffix — yet the
parser rejects it, because `.` in a Go regular expression does not match a
newline. -/
theorem parseChordFileName_newline_label :
    ("1 a\nb.mid".toList = ['1'] ++ ' ' :: (['a', '\n', 'b'] ++ ['.', 'm', 'i', 'd']) ∧
        (['1'] : List Char).all Char.isDigit = true ∧ (['a', '\n', 'b'] : List Char) ≠ []) ∧
      parseChordFileName ("1 a\nb.mid".toList) = none := by
  decide

/-- C5 (amended): for every name of the shape one-or-two ASCII digits, one
space, a non-empty label containing no newline, then `".mid"`, the parser
returns the digits as an integer and the label trimmed of surrounding white
space; a name is rejected exactly when it has no such decomposition. -/
theorem parseChordFileName_spec :
    (∀ d lab : List Char, 1 ≤ d.length → d.length ≤ 2 → d.all Char.isDigit = true →
        lab ≠ [] → lab.all dotChar = true →
        parseChordFileName (d ++ ' ' :: (lab ++ ['.', 'm', 'i', 'd'])) =
          some (digitsToNat d, trimSpace lab)) ∧
    (∀ s : List Char, parseChordFileName s = none ↔
        ¬ ∃ d lab : List Char, s = d ++ ' ' :: (lab ++ ['.', 'm', 'i', 'd']) ∧
          1 ≤ d.length ∧ d.length ≤ 2 ∧ d.all Char.isDigit = true ∧
          lab ≠ [] ∧ lab.all dotChar = true) := by
  have hassemble : ∀ d lab : List Char, 1 ≤ d.length → d.length ≤ 2 →
      d.all Char.isDigit = true → lab ≠ [] → lab.all dotChar = true →
      parseChordFileName (d ++ ' ' :: (lab ++ ['.', 'm', 'i', 'd'])) =
        some (digitsToNat d, trimSpace lab) := by
    intro d lab hl1 hl2 hdig hlab hdot
    unfold parseChordFileName
    rw [matchChordFileName_assemble (by omega) hdig hlab hdot]
  refine ⟨hassemble, ?_⟩
  intro s
  constructor
  · rintro hnone ⟨d, lab, rfl, hl1, hl2, hdig, hlab, hdot⟩
    rw [hassemble d lab hl1 hl2 hdig hlab hdot] at hnone
    exact absurd hnone (by simp)
  · intro hno
    cases hp : parseChordFileName s with
    | none => rfl
    | some v =>
      exfalso
      apply hno
      unfold parseChordFileName at hp
      cases hm : matchChordFileName s with
      | none => rw [hm] at hp; exact absurd hp (by simp)
      | some p =>
        obtain ⟨pd, plab⟩ := p
        obtain ⟨hs, hlen, hdig, hlab, hdot⟩ := matchChordFileName_some_spec hm
        exact ⟨pd, plab, hs, by omega, by omega, hdig, hlab, hdot⟩

/-- C5 witness: the parser evaluated through the amended specification on the
concrete name `"1  Cmaj .mid"` (label `" Cmaj "`, trimmed to `"Cmaj"`). -/
theorem parseChordFileName_spec_witness :
    parseChordFileName (['1'] ++ ' ' :: ([' ', 'C', 'm', 'a', 'j', ' '] ++ ['.', 'm', 'i', 'd'])) =
        some (digitsToNat ['1'], trimSpace [' ', 'C', 'm', 'a', 'j', ' ']) ∧
      digitsToNat ['1'] = 1 ∧ trimSpace [' ', 'C', 'm', 'a', 'j', ' '] = ['C', 'm', 'a', 'j'] :=
  ⟨parseChordFileName_spec.1 ['1'] [' ', 'C', 'm', 'a', 'j', ' ']
      (by decide) (by decide) (by decide) (by decide) (by decide),
    by decide, by decide⟩

/-- C3 witness: the offsets theorem applied to the concrete low-key stream
and its only output value `-1`. -/
theorem readChordNotes_offsets_witness :
    ∃ e, e ∈ lowKeyEvents ∧ 0 < e.vel ∧ (-1 : Int) = (e.key : Int) - baseNote :=
  (readChordNotes_offsets lowKeyEvents (-1) (by decide)).1

theorem parse_some_hasMidSuffix {s : List Char} {v : Nat × List Char}
    (h : parseChordFileName s = some v) : hasMidSuffix s = true := by
  unfold parseChordFileName at h
  cases hm : matchChordFileName s with
  | none => rw [hm] at h; exact absurd h (by simp)
  | some p =>
    obtain ⟨pd, plab⟩ := p
    obtain ⟨hs, -, -, -, -⟩ := matchChordFileName_some_spec hm
    rw [hs]
    unfold hasMidSuffix
    rw [show pd ++ ' ' :: (plab ++ ['.', 'm', 'i', 'd']) =
        (pd ++ ' ' :: plab) ++ ['.', 'm', 'i', 'd'] by simp]
    rw [stripMid_append]
    rfl

theorem stepFile_valid {f : DirEntry} {n : Nat} {lab : List Char}
    (hd : f.isDir = false) (hre : f.readErr = false)
    (hp : parseChordFileName f.name = some (n, lab))
    (h1 : minChordNumber ≤ n) (h2 : n ≤ maxChordNumber) (hlab : lab ≠ [])
    (c : List Chord) :
    stepFile c f = .ok (c.set (n - 1) ⟨lab, sortInts (readChordNotes f.events)⟩) := by
  unfold stepFile
  rw [if_neg (by simp [hd, parse_some_hasMidSuffix hp]), hp]
  simp only []
  have hmin : minChordNumber = 1 := rfl
  rw [if_neg (by rintro (hb | hb | hb | hb) <;> first | omega | exact hlab hb)]
  rw [if_neg (by simp [hre])]

theorem stepFile_parse_err {f : DirEntry}
    (hd : f.isDir = false) (hs : hasMidSuffix f.name = true)
    (hp : parseChordFileName f.name = none) (c : List Chord) :
    stepFile c f = .error (ConvError.invalidFileName f.name) := by
  unfold stepFile
  rw [if_neg (by simp [hd, hs]), hp]

theorem stepFile_length {chords chords2 : List Chord} {f : DirEntry}
    (h : stepFile chords f = .ok chords2) : chords2.length = chords.length := by
  unfold stepFile at h
  split at h
  · injection h with h1; rw [← h1]
  · cases hp : parseChordFileName f.name with
    | none => rw [hp] at h; exact absurd h (by simp)
    | some v =>
      obtain ⟨n, lab⟩ := v
      rw [hp] at h
      simp only [] at h
      split at h
      · injection h with h1; rw [← h1]
      · split at h
        · exact absurd h (by simp)
        · injection h with h1; rw [← h1]; simp

theorem fillsSlot_of {f : DirEntry} {n : Nat} {lab : List Char}
    (hd : f.isDir = false)
    (hp : parseChordFileName f.name = some (n, lab))
    (h1 : minChordNumber ≤ n) (h2 : n ≤ maxChordNumber) (hlab : lab ≠ []) :
    fillsSlot f n = true := by
  unfold fillsSlot
  rw [hd, parse_some_hasMidSuffix hp, hp]
  simp [Option.any, h1, h2, hlab]

theorem stepFile_preserves_slot {chords chords2 : List Chord} {f : DirEntry} {k : Nat}
    (hk1 : 1 ≤ k) (hk : fillsSlot f k = false) (h : stepFile chords f = .ok chords2) :
    chords2[k - 1]? = chords[k - 1]? := by
  unfold stepFile at h
  split at h
  · injection h with h1; rw [← h1]
  · rename_i hcond
    have hd : f.isDir = false := by
      rcases not_or.mp hcond with ⟨ha, _⟩
      exact Bool.not_eq_true _ ▸ (by simpa using ha)
    have hs : hasMidSuffix f.name = true := by
      rcases not_or.mp hcond with ⟨_, hb⟩
      simpa using hb
    cases hp : parseChordFileName f.name with
    | none => rw [hp] at h; exact absurd h (by simp)
    | some v =>
      obtain ⟨n, lab⟩ := v
      rw [hp] at h
      simp only [] at h
      split at h
      · injection h with h1; rw [← h1]
      · rename_i hrange
        split at h
        · exact absurd h (by simp)
        · injection h with h1
          have hfill : fillsSlot f n = true := by
            have hmin : minChordNumber = 1 := rfl
            have hmax : maxChordNumber = 12 := rfl
            rcases not_or.mp hrange with ⟨ha, hrest⟩
            rcases not_or.mp hrest with ⟨hb, hrest2⟩
            rcases not_or.mp hrest2 with ⟨-, hdd⟩
            exact fillsSlot_of hd hp (by omega) (by omega) hdd
          have hne : n ≠ k := by
            intro hnk
            rw [hnk] at hfill
            rw [hfill] at hk
            exact absurd hk (by simp)
          have hn1 : minChordNumber ≤ n := by
            rcases not_or.mp hrange with ⟨ha, -⟩
            omega
          rw [← h1]
          exact List.getElem?_set_ne (by
            have hmin : minChordNumber = 1 := rfl
            omega)

theorem walkFiles_cons_ok {c c1 : List Chord} {f : DirEntry} (h : stepFile c f = .ok c1)
    (rest : List DirEntry) : walkFiles c (f :: rest) = walkFiles c1 rest := by
  rw [walkFiles, h]

theorem walkFiles_cons_err {c : List Chord} {f : DirEntry} {e : ConvError}
    (h : stepFile c f = .error e) (rest : List DirEntry) :
    walkFiles c (f :: rest) = .error e := by
  rw [walkFiles, h]

theorem walkFiles_length :
    ∀ (files : List DirEntry) (chords chords2 : List Chord),
      walkFiles chords files = .ok chords2 → chords2.length = chords.length := by
  intro files
  induction files with
  | nil => intro c c2 h; injection h with h1; rw [← h1]
  | cons f rest ih =>
    intro c c2 h
    cases hs : stepFile c f with
    | error e => rw [walkFiles_cons_err hs] at h; exact absurd h (by simp)
    | ok c1 =>
      rw [walkFiles_cons_ok hs] at h
      rw [ih c1 c2 h, stepFile_length hs]

theorem walkFiles_preserves_slot {k : Nat} (hk1 : 1 ≤ k) :
    ∀ (files : List DirEntry) (chords chords2 : List Chord),
      (∀ f ∈ files, fillsSlot f k = false) → walkFiles chords files = .ok chords2 →
      chords2[k - 1]? = chords[k - 1]? := by
  intro files
  induction files with
  | nil => intro c c2 _ h; injection h with h1; rw [← h1]
  | cons f rest ih =>
    intro c c2 hall h
    cases hs : stepFile c f with
    | error e => rw [walkFiles_cons_err hs] at h; exact absurd h (by simp)
    | ok c1 =>
      rw [walkFiles_cons_ok hs] at h
      rw [ih c1 c2 (fun g hg => hall g (List.mem_cons_of_mem f hg)) h]
      exact stepFile_preserves_slot hk1 (hall f (List.mem_cons_self f rest)) hs

theorem walkFiles_append_ok {xs : List DirEntry} :
    ∀ {c c2 : List Chord}, walkFiles c xs = .ok c2 →
      ∀ ys, walkFiles c (xs ++ ys) = walkFiles c2 ys := by
  induction xs with
  | nil => intro c c2 h ys; injection h with h1; rw [h1]; rfl
  | cons f rest ih =>
    intro c c2 h ys
    cases hs : stepFile c f with
    | error e => rw [walkFiles_cons_err hs] at h; exact absurd h (by simp)
    | ok c1 =>
      rw [walkFiles_cons_ok hs] at h
      show walkFiles c (f :: (rest ++ ys)) = walkFiles c2 ys
      rw [walkFiles_cons_ok hs]
      exact ih h ys

theorem walkFiles_skip {f : DirEntry} (hf : ∀ c, stepFile c f = .ok c) :
    ∀ (xs ys : List DirEntry) (c : List Chord),
      walkFiles c (xs ++ f :: ys) = walkFiles c (xs ++ ys) := by
  intro xs
  induction xs with
  | nil =>
    intro ys c
    show walkFiles c (f :: ys) = walkFiles c ys
    rw [walkFiles_cons_ok (hf c)]
  | cons x rest ih =>
    intro ys c
    show walkFiles c (x :: (rest ++ f :: ys)) = walkFiles c (x :: (rest ++ ys))
    cases hs : stepFile c x with
    | error e => rw [walkFiles_cons_err hs, walkFiles_cons_err hs]
    | ok c1 => rw [walkFiles_cons_ok hs, walkFiles_cons_ok hs]; exact ih ys c1

theorem walkFiles_append_err {xs : List DirEntry} :
    ∀ {c : List Chord} {e : ConvError}, walkFiles c xs = .error e →
      ∀ ys, walkFiles c (xs ++ ys) = .error e := by
  induction xs with
  | nil =>
    intro c e h ys
    rw [walkFiles] at h
    exact absurd h (by simp)
  | cons f rest ih =>
    intro c e h ys
    show walkFiles c (f :: (rest ++ ys)) = .error e
    cases hs : stepFile c f with
    | error e1 =>
      rw [walkFiles_cons_err hs] at h
      injection h with he
      rw [walkFiles_cons_err hs, he]
    | ok c1 =>
      rw [walkFiles_cons_ok hs] at h
      rw [walkFiles_cons_ok hs]
      exact ih h ys

theorem walkFiles_err_of_mem {f : DirEntry} {files : List DirEntry} (hf : f ∈ files)
    (herr : ∀ c, ∃ e, stepFile c f = .error e) :
    ∀ c, ∃ e, walkFiles c files = .error e := by
  induction files with
  | nil => exact absurd hf (by simp)
  | cons g rest ih =>
    intro c
    rcases List.mem_cons.mp hf with hfg | hmem
    · obtain ⟨e, he⟩ := herr c
      rw [hfg] at he
      exact ⟨e, walkFiles_cons_err he rest⟩
    · cases hs : stepFile c g with
      | error e => exact ⟨e, walkFiles_cons_err hs rest⟩
      | ok c1 =>
        obtain ⟨e, he⟩ := ih hmem c1
        exact ⟨e, by rw [walkFiles_cons_ok hs]; exact he⟩

theorem initChords_length : initChords.length = maxChordNumber := by
  simp [initChords]

theorem initChords_get {k : Nat} (hk1 : minChordNumber ≤ k) (hk2 : k ≤ maxChordNumber) :
    initChords[k - 1]? = some (defaultChord (k - 1)) := by
  have hmin : minChordNumber = 1 := rfl
  have hmax : maxChordNumber = 12 := rfl
  unfold initChords
  rw [List.getElem?_map, List.getElem?_range (by omega : k - 1 < maxChordNumber)]
  rfl

theorem processOneSetFolder_le {chordSets res : List ChordSet} {setName uuid : String}
    {files : List DirEntry} (hle : chordSets.length ≤ maxSetNumber)
    (h : processOneSetFolder chordSets setName files uuid = .ok res) :
    res.length ≤ maxSetNumber := by
  unfold processOneSetFolder at h
  by_cases hc : maxSetNumber ≤ chordSets.length
  · rw [if_pos hc] at h; injection h with h1; rw [← h1]; exact hle
  · rw [if_neg hc] at h
    cases hw : walkFiles initChords files with
    | error e => rw [hw] at h; exact absurd h (by simp)
    | ok chords =>
      rw [hw] at h
      injection h with h1
      rw [← h1]
      simp only [List.length_append, List.length_cons, List.length_nil]
      omega

theorem runFolders_le :
    ∀ (folders : List SetFolder) (chordSets res : List ChordSet),
      chordSets.length ≤ maxSetNumber → runFolders chordSets folders = .ok res →
      res.length ≤ maxSetNumber := by
  intro folders
  induction folders with
  | nil => intro cs res hle h; injection h with h1; rw [← h1]; exact hle
  | cons folder rest ih =>
    intro cs res hle h
    cases hp : processOneSetFolder cs folder.name folder.files folder.uuid with
    | error e => rw [runFolders, hp] at h; exact absurd h (by simp)
    | ok cs2 =>
      rw [runFolders, hp] at h
      simp only [] at h
      exact ih cs2 res (processOneSetFolder_le hle hp) h

/-- C2 counterexample: a folder holding the single file `"foo.mid"` — a name
with the `.mid` suffix that does not match the required shape — makes the
builder return an error instead of skipping the file and completing the
folder normally. -/
theorem processOneSetFolder_bad_name_concrete :
    processOneSetFolder [] "set" [⟨false, ['f', 'o', 'o', '.', 'm', 'i', 'd'], [], false⟩]
        "uuid" =
      .error (ConvError.invalidFileName ['f', 'o', 'o', '.', 'm', 'i', 'd']) := by
  rfl

/-- C2 (amended): when a chord-set folder contains a non-directory file whose
name ends in `".mid"` but does not parse, the builder propagates the parse
error: the folder's build aborts with an error instead of skipping the file. -/
theorem processOneSetFolder_parse_error_aborts (chordSets : List ChordSet)
    (setName uuid : String) (files : List DirEntry) (f : DirEntry)
    (hlen : chordSets.length < maxSetNumber)
    (hf : f ∈ files) (hd : f.isDir = false) (hs : hasMidSuffix f.name = true)
    (hp : parseChordFileName f.name = none) :
    ∃ e, processOneSetFolder chordSets setName files uuid = .error e := by
  obtain ⟨e, he⟩ :=
    walkFiles_err_of_mem hf
      (fun c => ⟨ConvError.invalidFileName f.name, stepFile_parse_err hd hs hp c⟩)
      initChords
  refine ⟨e, ?_⟩
  unfold processOneSetFolder
  rw [if_neg (by omega), he]

/-- C2 witness: the amended theorem applied to the one-file folder
`["foo.mid"]`. -/
theorem processOneSetFolder_parse_error_aborts_witness :
    ∃ e, processOneSetFolder [] "set" [⟨false, ['f', 'o', 'o', '.', 'm', 'i', 'd'], [], false⟩]
        "uuid" = .error e :=
  processOneSetFolder_parse_error_aborts [] "set" "uuid"
    [⟨false, ['f', 'o', 'o', '.', 'm', 'i', 'd'], [], false⟩]
    ⟨false, ['f', 'o', 'o', '.', 'm', 'i', 'd'], [], false⟩
    (by decide) (by decide) rfl (by decide) (by decide)

/-- C4: when the builder appends a set, the produced `ChordSet` has exactly
`maxChordNumber` (12) chords, and every slot not filled by any file of the
folder holds the placeholder chord `"Chd <slot>"` with empty notes. -/
theorem processOneSetFolder_twelve_placeholders (chordSets : List ChordSet)
    (setName uuid : String) (files : List DirEntry) (res : List ChordSet)
    (hlen : chordSets.length < maxSetNumber)
    (hok : processOneSetFolder chordSets setName files uuid = .ok res) :
    ∃ cs, res = chordSets ++ [cs] ∧ cs.chords.length = maxChordNumber ∧
      ∀ k, minChordNumber ≤ k → k ≤ maxChordNumber →
        (∀ f ∈ files, fillsSlot f k = false) →
        cs.chords[k - 1]? = some (defaultChord (k - 1)) := by
  unfold processOneSetFolder at hok
  rw [if_neg (by omega)] at hok
  cases hw : walkFiles initChords files with
  | error e => rw [hw] at hok; exact absurd hok (by simp)
  | ok chords =>
    rw [hw] at hok
    simp only [] at hok
    injection hok with h1
    refine ⟨⟨chords, setName, "native-instruments-chord-set", uuid, version⟩, h1.symm,
      (walkFiles_length files initChords chords hw).trans initChords_length, ?_⟩
    intro k hk1 hk2 hnone
    show chords[k - 1]? = some (defaultChord (k - 1))
    rw [walkFiles_preserves_slot hk1 files initChords chords hnone hw]
    exact initChords_get hk1 hk2

/-- C4 witness: the builder applied to an empty folder from an empty
collection; all twelve slots stay placeholders. -/
theorem processOneSetFolder_twelve_placeholders_witness :
    ∃ cs, [(⟨initChords, "a", "native-instruments-chord-set", "u", version⟩ : ChordSet)] =
        [] ++ [cs] ∧ cs.chords.length = maxChordNumber ∧
      ∀ k, minChordNumber ≤ k → k ≤ maxChordNumber →
        (∀ f ∈ ([] : List DirEntry), fillsSlot f k = false) →
        cs.chords[k - 1]? = some (defaultChord (k - 1)) :=
  processOneSetFolder_twelve_placeholders [] "a" "u" []
    [⟨initChords, "a", "native-instruments-chord-set", "u", version⟩] (by decide) rfl

/-- C6: a file whose name parses to a chord number outside `[1, 12]` or whose
trimmed label is empty is excluded without error: the walk step returns the
chords unchanged, and the builder's result on any folder containing the file
equals its result on the folder without it. -/
theorem skip_out_of_range (f : DirEntry) (n : Nat) (lab : List Char)
    (hd : f.isDir = false)
    (hp : parseChordFileName f.name = some (n, lab))
    (hbad : n < minChordNumber ∨ maxChordNumber < n ∨ lab = []) :
    (∀ c, stepFile c f = .ok c) ∧
    ∀ (chordSets : List ChordSet) (setName uuid : String) (xs ys : List DirEntry),
      processOneSetFolder chordSets setName (xs ++ f :: ys) uuid =
        processOneSetFolder chordSets setName (xs ++ ys) uuid := by
  have hstep : ∀ c, stepFile c f = .ok c := by
    intro c
    unfold stepFile
    rw [if_neg (by simp [hd, parse_some_hasMidSuffix hp]), hp]
    simp only []
    rw [if_pos (by
      rcases hbad with hb | hb | hb
      · exact Or.inl hb
      · exact Or.inr (Or.inl hb)
      · exact Or.inr (Or.inr (Or.inr hb)))]
  refine ⟨hstep, ?_⟩
  intro chordSets setName uuid xs ys
  unfold processOneSetFolder
  rw [walkFiles_skip hstep xs ys initChords]

/-- C6 witness: the skip theorem applied to the file `"0 x.mid"` (parsed
chord number 0, below the minimum). -/
theorem skip_out_of_range_witness :
    stepFile initChords ⟨false, ['0', ' ', 'x', '.', 'm', 'i', 'd'], [], false⟩ =
      .ok initChords :=
  (skip_out_of_range ⟨false, ['0', ' ', 'x', '.', 'm', 'i', 'd'], [], false⟩ 0 ['x']
    rfl (by decide) (Or.inl (by decide))).1 initChords

/-- C7: when a valid file `e` targeting slot `k` is processed and no later
file validly targets slot `k`, the produced set's slot `k` holds exactly the
chord built from `e` — the last processed valid file for a slot wins,
silently overwriting whatever earlier files put there. -/
theorem processOneSetFolder_last_wins (chordSets : List ChordSet) (setName uuid : String)
    (xs ys : List DirEntry) (e : DirEntry) (k : Nat) (lab : List Char)
    (res : List ChordSet)
    (hlen : chordSets.length < maxSetNumber)
    (hd : e.isDir = false) (hre : e.readErr = false)
    (hp : parseChordFileName e.name = some (k, lab))
    (hk1 : minChordNumber ≤ k) (hk2 : k ≤ maxChordNumber) (hlab : lab ≠ [])
    (hys : ∀ f ∈ ys, fillsSlot f k = false)
    (hok : processOneSetFolder chordSets setName (xs ++ e :: ys) uuid = .ok res) :
    ∃ cs, res = chordSets ++ [cs] ∧
      cs.chords[k - 1]? = some ⟨lab, sortInts (readChordNotes e.events)⟩ := by
  unfold processOneSetFolder at hok
  rw [if_neg (by omega)] at hok
  cases hw : walkFiles initChords (xs ++ e :: ys) with
  | error e2 => rw [hw] at hok; exact absurd hok (by simp)
  | ok chords =>
    rw [hw] at hok
    simp only [] at hok
    injection hok with h1
    refine ⟨⟨chords, setName, "native-instruments-chord-set", uuid, version⟩, h1.symm, ?_⟩
    show chords[k - 1]? = some ⟨lab, sortInts (readChordNotes e.events)⟩
    cases hx : walkFiles initChords xs with
    | error e2 =>
      rw [walkFiles_append_err hx (e :: ys)] at hw
      exact absurd hw (by simp)
    | ok c1 =>
      rw [walkFiles_append_ok hx (e :: ys),
        walkFiles_cons_ok (stepFile_valid hd hre hp hk1 hk2 hlab c1)] at hw
      rw [walkFiles_preserves_slot hk1 ys _ chords hys hw]
      have hlen1 : c1.length = maxChordNumber :=
        (walkFiles_length xs initChords c1 hx).trans initChords_length
      exact List.getElem?_set_self (by
        have hmin : minChordNumber = 1 := rfl
        omega)

/-- C7 witness: the folder `["3 Cmaj.mid", "03 Cmaj7.mid"]`, both files
targeting slot 3; the one processed last (`"03 Cmaj7.mid"`) wins. -/
theorem processOneSetFolder_last_wins_witness :
    ∃ cs, [(⟨initChords.set 2 ⟨['C', 'm', 'a', 'j', '7'],
          sortInts (readChordNotes [⟨0, 64, 100⟩])⟩,
        "s", "native-instruments-chord-set", "u", version⟩ : ChordSet)] = [] ++ [cs] ∧
      cs.chords[3 - 1]? = some ⟨['C', 'm', 'a', 'j', '7'],
        sortInts (readChordNotes [⟨0, 64, 100⟩])⟩ :=
  processOneSetFolder_last_wins [] "s" "u"
    [⟨false, ['3', ' ', 'C', 'm', 'a', 'j', '.', 'm', 'i', 'd'], [⟨0, 60, 100⟩], false⟩] []
    ⟨false, ['0', '3', ' ', 'C', 'm', 'a', 'j', '7', '.', 'm', 'i', 'd'], [⟨0, 64, 100⟩], false⟩
    3 ['C', 'm', 'a', 'j', '7'] _
    (by decide) rfl rfl (by decide) (by decide) (by decide) (by decide)
    (by intro f hf; exact absurd hf (by simp)) rfl

/-- C8: once `maxSetNumber` (16) chord sets are collected, invoking the
builder again adds nothing, returns no error and leaves the collection
unchanged; consequently neither a single builder call nor the driver loop
over any folder list ever grows the collection beyond 16. -/
theorem maxSets_cap (chordSets : List ChordSet) (setName uuid : String)
    (files : List DirEntry) :
    (maxSetNumber ≤ chordSets.length →
        processOneSetFolder chordSets setName files uuid = .ok chordSets) ∧
    (∀ res, chordSets.length ≤ maxSetNumber →
        processOneSetFolder chordSets setName files uuid = .ok res →
        res.length ≤ maxSetNumber) ∧
    (∀ (folders : List SetFolder) (res : List ChordSet),
        chordSets.length ≤ maxSetNumber →
        runFolders chordSets folders = .ok res → res.length ≤ maxSetNumber) := by
  refine ⟨?_, fun res hle h => processOneSetFolder_le hle h,
    fun folders res hle h => runFolders_le folders chordSets res hle h⟩
  intro h
  unfold processOneSetFolder
  rw [if_pos h]

/-- C8 witness: a full collection of 16 sets is returned unchanged. -/
theorem maxSets_cap_witness :
    processOneSetFolder (List.replicate 16 ⟨[], "n", "t", "u", "v"⟩) "s" [] "u" =
      .ok (List.replicate 16 ⟨[], "n", "t", "u", "v"⟩) :=
  (maxSets_cap (List.replicate 16 ⟨[], "n", "t", "u", "v"⟩) "s" "u" []).1 (by decide)

/-- C9: the chord set at 0-based position `i` is written to the file named by
the pattern `user_chord_set_0%d.json` applied to `i+1`; for `i+1` in `[1, 9]`
this gives a two-digit zero-padded number (22-character name, e.g.
`user_chord_set_01.json`), for `i+1` in `[10, 16]` a three-character numeric
field (23-character name, e.g. `user_chord_set_016.json`). -/
theorem outputJsonFiles_names (sets : List ChordSet) (i : Nat) (h : i < sets.length) :
    ((outputJsonFiles sets)[i]?).map Prod.fst = some (outFileName i) ∧
    outFileName i = "user_chord_set_0" ++ Nat.repr (i + 1) ++ ".json" ∧
    (i + 1 ≤ 9 → (outFileName i).length = 22) ∧
    (10 ≤ i + 1 → i + 1 ≤ 16 → (outFileName i).length = 23) := by
  refine ⟨?_, rfl, ?_, ?_⟩
  · unfold outputJsonFiles
    rw [List.getElem?_map, List.getElem?_enum, List.getElem?_eq_getElem h]
    rfl
  · intro h9
    have hi : i ≤ 8 := by omega
    interval_cases i <;> decide
  · intro h10 h16
    have hi1 : 9 ≤ i := by omega
    have hi2 : i ≤ 15 := by omega
    interval_cases i <;> decide

/-- C9 witness: the names theorem at position 15 of a 16-set collection,
together with the two anchor file names from the claim. -/
theorem outputJsonFiles_names_witness :
    (((outputJsonFiles (List.replicate 16 ⟨[], "n", "t", "u", "v"⟩))[15]?).map Prod.fst =
        some (outFileName 15) ∧
      outFileName 15 = "user_chord_set_0" ++ Nat.repr (15 + 1) ++ ".json" ∧
      (15 + 1 ≤ 9 → (outFileName 15).length = 22) ∧
      (10 ≤ 15 + 1 → 15 + 1 ≤ 16 → (outFileName 15).length = 23)) ∧
    outFileName 15 = "user_chord_set_016.json" ∧
    outFileName 0 = "user_chord_set_01.json" :=
  ⟨outputJsonFiles_names (List.replicate 16 ⟨[], "n", "t", "u", "v"⟩) 15 (by decide),
    by decide, by decide⟩

/-- C10: processing one valid file targeting slot `k` overwrites exactly the
chords-array entry at index `k-1`; every other index is unchanged. -/
theorem stepFile_frame (chords : List Chord) (e : DirEntry) (k : Nat) (lab : List Char)
    (hd : e.isDir = false) (hre : e.readErr = false)
    (hp : parseChordFileName e.name = some (k, lab))
    (hk1 : minChordNumber ≤ k) (hk2 : k ≤ maxChordNumber) (hlab : lab ≠ []) :
    stepFile chords e =
      .ok (chords.set (k - 1) ⟨lab, sortInts (readChordNotes e.events)⟩) ∧
    ∀ j, j ≠ k - 1 →
      (chords.set (k - 1) ⟨lab, sortInts (readChordNotes e.events)⟩)[j]? = chords[j]? :=
  ⟨stepFile_valid hd hre hp hk1 hk2 hlab chords,
    fun j hj => List.getElem?_set_ne (fun hjk => hj hjk.symm)⟩

/-- C10 witness: the frame theorem applied to the file `"03 Cmaj7.mid"` on
the initial chords array; slot 3 is set, index 0 is untouched. -/
theorem stepFile_frame_witness :
    stepFile initChords
        ⟨false, ['0', '3', ' ', 'C', 'm', 'a', 'j', '7', '.', 'm', 'i', 'd'],
          [⟨0, 64, 100⟩], false⟩ =
      .ok (initChords.set (3 - 1) ⟨['C', 'm', 'a', 'j', '7'],
        sortInts (readChordNotes [⟨0, 64, 100⟩])⟩) :=
  (stepFile_frame initChords
    ⟨false, ['0', '3', ' ', 'C', 'm', 'a', 'j', '7', '.', 'm', 'i', 'd'],
      [⟨0, 64, 100⟩], false⟩
    3 ['C', 'm', 'a', 'j', '7'] rfl rfl (by decide) (by decide) (by decide) (by decide)).1

end MaschineChords
